import Mathlib

/-!
Shallow embedding of the qutip example scripts (`ex_JC_model.py`,
`qutip/examples/spinchain.py`, `qutip/examples/ex_25.py`): operator
construction on composite Hilbert spaces, rate-gated collapse-operator
assembly, and sweep orchestration, together with theorems checking the
specification's claims against these definitions.

Operators are complex matrices; machine floats are modelled as real
numbers; the external solvers (`mesolve`, `mcsolve`, `steadystate`,
`expect`, `me_ode_solve`) are abstracted as function parameters, as the
specification declares them external collaborators.
-/

open Matrix Kronecker

namespace QuSim

/-! ### Operator Builder: tensor products and lifting -/

/-- `destroy n` — the annihilation operator on an `n`-dimensional Fock
basis: entry `(i, i+1)` is `sqrt (i+1)`, all other entries vanish
(qutip's `destroy(N)`). -/
noncomputable def destroy (n : ℕ) : Matrix (Fin n) (Fin n) ℂ :=
  Matrix.of fun i j => if (i : ℕ) + 1 = (j : ℕ) then (Real.sqrt (j : ℕ) : ℂ) else 0

/-- Pauli x matrix (`sigmax()`). -/
def sigmax : Matrix (Fin 2) (Fin 2) ℂ :=
  !![0, 1; 1, 0]

/-- Pauli y matrix (`sigmay()`). -/
def sigmay : Matrix (Fin 2) (Fin 2) ℂ :=
  !![0, -Complex.I; Complex.I, 0]

/-- Pauli z matrix (`sigmaz()`). -/
def sigmaz : Matrix (Fin 2) (Fin 2) ℂ :=
  !![1, 0; 0, -1]

/-- `tensor(op_list)` — the tensor product of one operator per subsystem,
on an `N`-subsystem composite space with subsystem dimensions `dims`.
Composite indices are dependent tuples `(x j : Fin (dims j))`, and the
entry at `(x, y)` is the product of the factors' entries, which is the
standard Kronecker product up to the index bijection. -/
def tensorPi {N : ℕ} (dims : Fin N → ℕ)
    (M : ∀ j, Matrix (Fin (dims j)) (Fin (dims j)) ℂ) :
    Matrix (∀ j, Fin (dims j)) (∀ j, Fin (dims j)) ℂ :=
  Matrix.of fun x y => ∏ j, M j (x j) (y j)

/-- `lift(op, i, dims)` — the subsystem operator `A` extended by identity
operators on every other factor, in the declared subsystem order: the
translation of `op_list = [qeye(d)] * N; op_list[i] = A; tensor(op_list)`. -/
def lift {N : ℕ} (dims : Fin N → ℕ) (i : Fin N)
    (A : Matrix (Fin (dims i)) (Fin (dims i)) ℂ) :
    Matrix (∀ j, Fin (dims j)) (∀ j, Fin (dims j)) ℂ :=
  tensorPi dims (Function.update (fun j => (1 : Matrix (Fin (dims j)) (Fin (dims j)) ℂ)) i A)

/-- Error taxonomy of the spec (§7): only the constructors the Operator
Builder can raise are modelled. -/
inductive SimError : Type where
  | configurationError : SimError
deriving DecidableEq

/-- Modelled from the spec: the checked `lift` contract of §4.1 is absent
from `src/` (the scripts only index in-range positions), so the
index-validating wrapper is taken from the spec's words: the subsystem
index is checked against the declared subsystem-dimension list and an
out-of-range index fails with `ConfigurationError`; there is no other
error condition.  The elementary operator is supplied sized for the
subsystem at position `i` (available whenever `i` is in range). -/
def lift_checked {N : ℕ} (dims : Fin N → ℕ) (i : ℕ)
    (A : ∀ h : i < N, Matrix (Fin (dims ⟨i, h⟩)) (Fin (dims ⟨i, h⟩)) ℂ) :
    Except SimError (Matrix (∀ j, Fin (dims j)) (∀ j, Fin (dims j)) ℂ) :=
  if h : i < N then Except.ok (lift dims ⟨i, h⟩ (A h))
  else Except.error SimError.configurationError

/-! ### Dissipation Assembler -/

/-- One rate-gated append to a collapse list: the translation of
`if rate > 0.0: c_op_list.append(sqrt(rate) * op)`. -/
noncomputable def gatedAppend {α : Type} [SMul ℝ α]
    (l : List α) (rate : ℝ) (op : α) : List α :=
  if 0 < rate then l ++ [Real.sqrt rate • op] else l

/-- Assemble a whole collapse list from (rate, operator) candidate terms by
successive rate-gated appends, starting from the empty list `c_op_list = []`. -/
noncomputable def assembleList {α : Type} [SMul ℝ α]
    (terms : List (ℝ × α)) : List α :=
  terms.foldl (fun l t => gatedAppend l t.1 t.2) []

/-- Bose occupation number `1.0 / (exp(w / w_th) - 1.0)`. -/
noncomputable def bose (w w_th : ℝ) : ℝ :=
  1 / (Real.exp (w / w_th) - 1)

/-- The collapse-operator block `ex_25.py` repeats for each thermally
coupled mode: derive `n_th` from the Bose formula, then gate the
de-excitation term at rate `kappa * (1 + n_th)` on `op` and the thermal
excitation term at rate `kappa * n_th` on `op.dag()`. -/
noncomputable def mode_c_ops {ι : Type} (kappa w w_th : ℝ)
    (op : Matrix ι ι ℂ) : List (Matrix ι ι ℂ) :=
  let n_th := bose w w_th
  gatedAppend (gatedAppend [] (kappa * (1 + n_th)) op) (kappa * n_th) opᴴ

/-! ### Jaynes-Cummings model (`ex_JC_model.py`) -/

/-- `a = tensor(destroy(N), qeye(2))` — the cavity annihilation operator
lifted to the cavity ⊗ atom composite space. -/
noncomputable def jc_a (N : ℕ) : Matrix (Fin N × Fin 2) (Fin N × Fin 2) ℂ :=
  destroy N ⊗ₖ (1 : Matrix (Fin 2) (Fin 2) ℂ)

/-- `sm = tensor(qeye(N), destroy(2))` — the atomic lowering operator
lifted to the cavity ⊗ atom composite space. -/
noncomputable def jc_sm (N : ℕ) : Matrix (Fin N × Fin 2) (Fin N × Fin 2) ℂ :=
  (1 : Matrix (Fin N) (Fin N) ℂ) ⊗ₖ destroy 2

/-- The Jaynes-Cummings Hamiltonian of `jc_integrate`: with `use_rwa` the
rotating-wave coupling `g * (a.dag()*sm + a*sm.dag())`, without it the full
coupling `g * (a.dag() + a) * (sm + sm.dag())`. -/
noncomputable def jc_H (N : ℕ) (wc wa g : ℝ) (use_rwa : Bool) :
    Matrix (Fin N × Fin 2) (Fin N × Fin 2) ℂ :=
  let a := jc_a N
  let sm := jc_sm N
  if use_rwa then
    wc • (aᴴ * a) + wa • (smᴴ * sm) + g • (aᴴ * sm + a * smᴴ)
  else
    wc • (aᴴ * a) + wa • (smᴴ * sm) + g • ((aᴴ + a) * (sm + smᴴ))

/-- The collapse list of `jc_integrate`: thermal occupation fixed at
`n_th_a = 0.0`, then three rate-gated candidates — cavity relaxation at
`kappa * (1 + n_th_a)` on `a`, thermal excitation at `kappa * n_th_a` on
`a.dag()`, and atomic relaxation at `gamma` on `sm`. -/
noncomputable def jc_c_op_list (N : ℕ) (kappa gamma : ℝ) :
    List (Matrix (Fin N × Fin 2) (Fin N × Fin 2) ℂ) :=
  let a := jc_a N
  let sm := jc_sm N
  let n_th_a : ℝ := 0
  let l1 := gatedAppend [] (kappa * (1 + n_th_a)) a
  let l2 := gatedAppend l1 (kappa * n_th_a) aᴴ
  gatedAppend l2 gamma sm

/-! ### Sideband-cooled resonator sweep (`ex_25.py`) -/

/-- `hbar = 6.626e-34 / (2 * pi)`. -/
noncomputable def hbar : ℝ := 6.626e-34 / (2 * Real.pi)

/-- `kB = 1.38e-23`. -/
noncomputable def kB : ℝ := 1.38e-23

/-- Temperature in frequency units: `w_th = kB * (T * 1e-3) / hbar * 1e-9`. -/
noncomputable def ex25_w_th (T : ℝ) : ℝ :=
  kB * (T * 1e-3) / hbar * 1e-9

/-- `a = tensor(destroy(N_r), qeye(N_m))` — high-frequency mode. -/
noncomputable def ex25_a (N_r N_m : ℕ) : Matrix (Fin N_r × Fin N_m) (Fin N_r × Fin N_m) ℂ :=
  destroy N_r ⊗ₖ (1 : Matrix (Fin N_m) (Fin N_m) ℂ)

/-- `b = tensor(qeye(N_r), destroy(N_m))` — mechanical mode. -/
noncomputable def ex25_b (N_r N_m : ℕ) : Matrix (Fin N_r × Fin N_m) (Fin N_r × Fin N_m) ℂ :=
  (1 : Matrix (Fin N_r) (Fin N_r) ℂ) ⊗ₖ destroy N_m

/-- The driven RWA Hamiltonian of `compute`:
`(w_r - w_d) a†a + w_m b†b + g (a†a)(b + b†) + 0.5 A (a + a†)`. -/
noncomputable def ex25_H (N_r N_m : ℕ) (w_r w_m g w_d A : ℝ) :
    Matrix (Fin N_r × Fin N_m) (Fin N_r × Fin N_m) ℂ :=
  let a := ex25_a N_r N_m
  let b := ex25_b N_r N_m
  (w_r - w_d) • (aᴴ * a) + w_m • (bᴴ * b) + g • ((aᴴ * a) * (b + bᴴ)) +
    (0.5 * A) • (a + aᴴ)

/-- The per-temperature collapse list of `compute`: four rate-gated
appends — relaxation then thermal excitation for the high-frequency
resonator, then the same pair for the mechanical mode. -/
noncomputable def ex25_c_ops (N_r N_m : ℕ) (w_r w_m kappa_r kappa_m w_th : ℝ) :
    List (Matrix (Fin N_r × Fin N_m) (Fin N_r × Fin N_m) ℂ) :=
  let a := ex25_a N_r N_m
  let b := ex25_b N_r N_m
  let n_r_th := bose w_r w_th
  let n_m_th := bose w_m w_th
  let l1 := gatedAppend [] (kappa_r * (1 + n_r_th)) a
  let l2 := gatedAppend l1 (kappa_r * n_r_th) aᴴ
  let l3 := gatedAppend l2 (kappa_m * (1 + n_m_th)) b
  gatedAppend l3 (kappa_m * n_m_th) bᴴ

/-- One sweep point of `compute` (the body of the `for idx, T` loop): derive
`w_th` from the temperature, rebuild the collapse list, solve for the steady
state of the supplied Hamiltonian, and produce the four-column row
`[⟨a†a⟩, n_r_th, ⟨b†b⟩, n_m_th]`.  The external `steadystate` and `expect`
solvers are passed in as functions. -/
noncomputable def ex25_row {St : Type} (N_r N_m : ℕ)
    (steadystate : Matrix (Fin N_r × Fin N_m) (Fin N_r × Fin N_m) ℂ →
      List (Matrix (Fin N_r × Fin N_m) (Fin N_r × Fin N_m) ℂ) → St)
    (expect : St → Matrix (Fin N_r × Fin N_m) (Fin N_r × Fin N_m) ℂ → ℝ)
    (w_r w_m kappa_r kappa_m : ℝ)
    (H : Matrix (Fin N_r × Fin N_m) (Fin N_r × Fin N_m) ℂ) (T : ℝ) :
    Fin 4 → ℝ :=
  let a := ex25_a N_r N_m
  let b := ex25_b N_r N_m
  let w_th := ex25_w_th T
  let c_ops := ex25_c_ops N_r N_m w_r w_m kappa_r kappa_m w_th
  let rho_ss := steadystate H c_ops
  ![expect rho_ss (aᴴ * a), bose w_r w_th, expect rho_ss (bᴴ * b), bose w_m w_th]

/-- `compute(T_vec, ...)`: pre-calculate the operators and the Hamiltonian
once, then write one row of the result table per temperature, in sweep
order (the `photon_count[idx, :]` writes become successive row appends). -/
noncomputable def ex25_compute {St : Type} (N_r N_m : ℕ)
    (steadystate : Matrix (Fin N_r × Fin N_m) (Fin N_r × Fin N_m) ℂ →
      List (Matrix (Fin N_r × Fin N_m) (Fin N_r × Fin N_m) ℂ) → St)
    (expect : St → Matrix (Fin N_r × Fin N_m) (Fin N_r × Fin N_m) ℂ → ℝ)
    (T_vec : List ℝ) (w_r w_m g w_d A kappa_r kappa_m : ℝ) :
    List (Fin 4 → ℝ) :=
  let H := ex25_H N_r N_m w_r w_m g w_d A
  T_vec.foldl
    (fun acc T =>
      acc ++ [ex25_row N_r N_m steadystate expect w_r w_m kappa_r kappa_m H T])
    []

/-! ### Heisenberg spin chain (`spinchain.py`) -/

/-- Constant subsystem-dimension list of the `N`-site chain of two-level
systems. -/
def chainDims (N : ℕ) : Fin N → ℕ := fun _ => 2

/-- Site-`n` spin operator: `op_list = [qeye(2)] * N; op_list[n] = s;
tensor(op_list)`. -/
def spinAt (N : ℕ) (n : Fin N) (s : Matrix (Fin 2) (Fin 2) ℂ) :
    Matrix (Fin N → Fin 2) (Fin N → Fin 2) ℂ :=
  lift (chainDims N) n s

/-- The index `n` of the interaction loop (`xrange(N-1)`) viewed in `Fin N`. -/
def nbrL {N : ℕ} (n : Fin (N - 1)) : Fin N :=
  ⟨n.val, by omega⟩

/-- The right neighbour `n+1` of an interaction-loop index, in `Fin N`. -/
def nbrR {N : ℕ} (n : Fin (N - 1)) : Fin N :=
  ⟨n.val + 1, by omega⟩

/-- The spin-chain Hamiltonian of `integrate`, as the source builds it:
`H = 0`, a loop over `xrange(N)` adding the energy-splitting terms
`-0.5 * h[n] * sz_list[n]`, then a loop over `xrange(N-1)` adding the
three interaction terms for each bond. -/
noncomputable def spinchain_H (N : ℕ) (h Jx Jy Jz : ℕ → ℝ) :
    Matrix (Fin N → Fin 2) (Fin N → Fin 2) ℂ :=
  let H0 := (List.finRange N).foldl
    (fun H n => H + (-(0.5 : ℝ) * h n.val) • spinAt N n sigmaz) 0
  (List.finRange (N - 1)).foldl
    (fun H n =>
      H + (-(0.5 : ℝ) * Jx n.val) • (spinAt N (nbrL n) sigmax * spinAt N (nbrR n) sigmax)
        + (-(0.5 : ℝ) * Jy n.val) • (spinAt N (nbrL n) sigmay * spinAt N (nbrR n) sigmay)
        + (-(0.5 : ℝ) * Jz n.val) • (spinAt N (nbrL n) sigmaz * spinAt N (nbrR n) sigmaz))
    H0

/-- The solver-dispatch stage of `integrate`: `expt_list` is assigned only
by the `solver == "ode"` branch (calling `me_ode_solve`) or the
`solver == "mc"` branch (setting `ntraj = 250` and calling `mcsolve`); any
other selector leaves it unassigned, modelled as `none`.  The external
solvers are passed in as functions of the arguments the source hands them. -/
def integrate_solve {Op St R : Type}
    (me_ode_solve : Op → St → List ℝ → List Op → List Op → R)
    (mcsolve : Op → St → List ℝ → ℕ → List Op → List Op → R)
    (H : Op) (psi0 : St) (tlist : List ℝ) (c_op_list sz_list : List Op)
    (solver : String) : Option R :=
  if solver = "ode" then some (me_ode_solve H psi0 tlist c_op_list sz_list)
  else if solver = "mc" then some (mcsolve H psi0 tlist 250 c_op_list sz_list)
  else none

/-! ### Helper lemmas -/

/-- Mixed-product property of the `N`-fold tensor product: multiplying two
tensor products multiplies them factorwise. -/
theorem tensorPi_mul {N : ℕ} (dims : Fin N → ℕ)
    (M M' : ∀ j, Matrix (Fin (dims j)) (Fin (dims j)) ℂ) :
    tensorPi dims M * tensorPi dims M' = tensorPi dims (fun j => M j * M' j) := by
  apply Matrix.ext
  intro x y
  simp only [Matrix.mul_apply, tensorPi, Matrix.of_apply]
  rw [Finset.sum_congr rfl fun z _ => (Finset.prod_mul_distrib).symm]
  exact (Fintype.prod_sum fun j k => M j (x j) k * M' j k (y j)).symm

/-- A rate-gated append grows the list by at most one entry. -/
theorem gatedAppend_length_le {α : Type} [SMul ℝ α] (l : List α) (r : ℝ) (op : α) :
    (gatedAppend l r op).length ≤ l.length + 1 := by
  unfold gatedAppend
  split <;> simp

/-- Assembling from any accumulator yields at most one entry per candidate. -/
theorem assemble_foldl_length_le {α : Type} [SMul ℝ α] :
    ∀ (terms : List (ℝ × α)) (l : List α),
      (terms.foldl (fun l t => gatedAppend l t.1 t.2) l).length ≤
        l.length + terms.length := by
  intro terms
  induction terms with
  | nil => intro l; simp
  | cons t ts ih =>
    intro l
    have h1 := ih (gatedAppend l t.1 t.2)
    have h2 := gatedAppend_length_le l t.1 t.2
    simp only [List.foldl_cons, List.length_cons]
    omega

/-- With every candidate rate positive, assembly yields one entry per candidate. -/
theorem assemble_foldl_length_all_pos {α : Type} [SMul ℝ α] :
    ∀ (terms : List (ℝ × α)) (l : List α), (∀ t ∈ terms, 0 < t.1) →
      (terms.foldl (fun l t => gatedAppend l t.1 t.2) l).length =
        l.length + terms.length := by
  intro terms
  induction terms with
  | nil => intro l _; simp
  | cons t ts ih =>
    intro l hall
    have hpos : 0 < t.1 := hall t (List.mem_cons_self t ts)
    have hgate : gatedAppend l t.1 t.2 = l ++ [Real.sqrt t.1 • t.2] := by
      unfold gatedAppend
      rw [if_pos hpos]
    have h1 := ih (gatedAppend l t.1 t.2) fun u hu => hall u (List.mem_cons_of_mem t hu)
    simp only [List.foldl_cons, List.length_cons]
    rw [h1, hgate]
    simp
    omega

/-- With some candidate rate non-positive, assembly yields strictly fewer
entries than candidates. -/
theorem assemble_foldl_length_lt {α : Type} [SMul ℝ α] :
    ∀ (terms : List (ℝ × α)) (l : List α), (∃ t ∈ terms, t.1 ≤ 0) →
      (terms.foldl (fun l t => gatedAppend l t.1 t.2) l).length <
        l.length + terms.length := by
  intro terms
  induction terms with
  | nil => intro l hex; simp at hex
  | cons t ts ih =>
    intro l hex
    rcases hex with ⟨u, hu, hup⟩
    rcases List.mem_cons.1 hu with rfl | hmem
    · have hgate : gatedAppend l u.1 u.2 = l := by
        unfold gatedAppend
        rw [if_neg (not_lt.2 hup)]
      have h1 := assemble_foldl_length_le ts (gatedAppend l u.1 u.2)
      simp only [List.foldl_cons, List.length_cons]
      rw [hgate] at h1 ⊢
      omega
    · have h1 := ih (gatedAppend l t.1 t.2) ⟨u, hmem, hup⟩
      have h2 := gatedAppend_length_le l t.1 t.2
      simp only [List.foldl_cons, List.length_cons]
      omega

/-- A rate-gated append only ever appends at the tail. -/
theorem gatedAppend_eq_append {α : Type} [SMul ℝ α] (l : List α) (r : ℝ) (op : α) :
    gatedAppend l r op = l ++ gatedAppend [] r op := by
  unfold gatedAppend
  split <;> simp

/-- A left fold accumulating one summand per element is the sum of the
mapped list. -/
theorem foldl_add_eq {M ι : Type} [AddCommMonoid M] (f : ι → M) :
    ∀ (l : List ι) (init : M),
      l.foldl (fun acc x => acc + f x) init = init + (l.map f).sum := by
  intro l
  induction l with
  | nil => intro init; simp
  | cons x xs ih =>
    intro init
    simp only [List.foldl_cons, List.map_cons, List.sum_cons, ih, add_assoc]

/-- A left fold accumulating three summands per element is the sum of the
mapped list of their totals. -/
theorem foldl_add3_eq {M ι : Type} [AddCommMonoid M] (f g h : ι → M) :
    ∀ (l : List ι) (init : M),
      l.foldl (fun acc x => acc + f x + g x + h x) init =
        init + (l.map fun x => f x + g x + h x).sum := by
  intro l
  induction l with
  | nil => intro init; simp
  | cons x xs ih =>
    intro init
    simp only [List.foldl_cons, List.map_cons, List.sum_cons, ih]
    abel

/-- A left fold appending one entry per element is the map of the list. -/
theorem foldl_append_eq {α β : Type} (f : α → β) :
    ∀ (l : List α) (init : List β),
      l.foldl (fun acc x => acc ++ [f x]) init = init ++ l.map f := by
  intro l
  induction l with
  | nil => intro init; simp
  | cons x xs ih =>
    intro init
    simp only [List.foldl_cons, List.map_cons, ih, List.append_assoc,
      List.singleton_append]

/-- The `compute` sweep of `ex_25.py` is pointwise: it maps the single
sweep-point body, with the Hamiltonian built once, over the temperature
list. -/
theorem ex25_compute_eq_map {St : Type} (N_r N_m : ℕ)
    (steadystate : Matrix (Fin N_r × Fin N_m) (Fin N_r × Fin N_m) ℂ →
      List (Matrix (Fin N_r × Fin N_m) (Fin N_r × Fin N_m) ℂ) → St)
    (expect : St → Matrix (Fin N_r × Fin N_m) (Fin N_r × Fin N_m) ℂ → ℝ)
    (T_vec : List ℝ) (w_r w_m g w_d A kappa_r kappa_m : ℝ) :
    ex25_compute N_r N_m steadystate expect T_vec w_r w_m g w_d A kappa_r kappa_m =
      T_vec.map (ex25_row N_r N_m steadystate expect w_r w_m kappa_r kappa_m
        (ex25_H N_r N_m w_r w_m g w_d A)) := by
  simp only [ex25_compute]
  rw [foldl_append_eq (ex25_row N_r N_m steadystate expect w_r w_m kappa_r kappa_m
    (ex25_H N_r N_m w_r w_m g w_d A))]
  simp

/-! ### Claim theorems -/

/-- C7: lifted operators on distinct subsystems of an `N`-subsystem
composite space commute under multiplication:
`lift(A, i, dims) * lift(B, j, dims) = lift(B, j, dims) * lift(A, i, dims)`
whenever `i ≠ j`. -/
theorem lift_disjoint_comm {N : ℕ} (dims : Fin N → ℕ) (i j : Fin N)
    (hij : i ≠ j)
    (A : Matrix (Fin (dims i)) (Fin (dims i)) ℂ)
    (B : Matrix (Fin (dims j)) (Fin (dims j)) ℂ) :
    lift dims i A * lift dims j B = lift dims j B * lift dims i A := by
  unfold lift
  rw [tensorPi_mul, tensorPi_mul]
  refine congrArg (tensorPi dims) ?_
  funext k
  rcases eq_or_ne k i with rfl | hki
  · rw [Function.update_same, Function.update_noteq hij, mul_one, one_mul]
  · rcases eq_or_ne k j with rfl | hkj
    · rw [Function.update_same, Function.update_noteq hki, mul_one, one_mul]
    · rw [Function.update_noteq hki, Function.update_noteq hkj, mul_one]

/-- Witness for C7: the site-0 `σx` and site-1 `σz` operators of a
two-site chain commute. -/
theorem lift_disjoint_comm_witness :
    lift (chainDims 2) 0 sigmax * lift (chainDims 2) 1 sigmaz =
      lift (chainDims 2) 1 sigmaz * lift (chainDims 2) 0 sigmax :=
  lift_disjoint_comm (chainDims 2) 0 1 (by decide) sigmax sigmaz

/-- C5: with coupling strength `g = 0` the rotating-wave and the full
Jaynes-Cummings Hamiltonians are numerically identical, for every cavity
dimension and every pair of frequencies. -/
theorem jc_H_rwa_eq_full_of_zero_coupling (N : ℕ) (wc wa : ℝ) :
    jc_H N wc wa 0 true = jc_H N wc wa 0 false := by
  simp [jc_H]

/-- C10: the solver-dispatch stage of the spin-chain `integrate` produces a
result exactly for the selectors `"ode"` and `"mc"`; every other selector
leaves the result unassigned (no default-solver fallback). -/
theorem integrate_solve_some_iff {Op St R : Type}
    (me_ode_solve : Op → St → List ℝ → List Op → List Op → R)
    (mcsolve : Op → St → List ℝ → ℕ → List Op → List Op → R)
    (H : Op) (psi0 : St) (tlist : List ℝ) (c_op_list sz_list : List Op)
    (solver : String) :
    (integrate_solve me_ode_solve mcsolve H psi0 tlist c_op_list sz_list
        solver).isSome ↔
      solver = "ode" ∨ solver = "mc" := by
  unfold integrate_solve
  split_ifs with h1 h2
  · simp [h1]
  · simp [h2]
  · simp [h1, h2]

/-- C1: the Dissipation Assembler contributes `sqrt(rate) • op` exactly when
the rate is strictly positive, contributes nothing for a non-positive rate,
and consequently the assembled Collapse List has exactly one entry per
candidate when all rates are positive and strictly fewer entries when some
rate is non-positive. -/
theorem dissipation_gate_spec {α : Type} [SMul ℝ α] (r : ℝ) (op : α)
    (l : List α) (terms : List (ℝ × α)) :
    (0 < r → gatedAppend l r op = l ++ [Real.sqrt r • op]) ∧
    (r ≤ 0 → gatedAppend l r op = l) ∧
    ((∀ t ∈ terms, 0 < t.1) → (assembleList terms).length = terms.length) ∧
    ((∃ t ∈ terms, t.1 ≤ 0) → (assembleList terms).length < terms.length) := by
  refine ⟨fun h => ?_, fun h => ?_, fun h => ?_, fun h => ?_⟩
  · unfold gatedAppend
    rw [if_pos h]
  · unfold gatedAppend
    rw [if_neg (not_lt.2 h)]
  · have := assemble_foldl_length_all_pos terms [] h
    simpa [assembleList] using this
  · have := assemble_foldl_length_lt terms [] h
    simpa [assembleList] using this

/-- Witness for C1: a positive rate appends its weighted operator; a list
with one non-positive-rate candidate assembles to fewer entries than
candidates. -/
theorem dissipation_gate_spec_witness :
    gatedAppend ([] : List ℝ) 4 1 = [Real.sqrt 4 • (1 : ℝ)] ∧
    (assembleList [((-1 : ℝ), (1 : ℝ))]).length < 1 := by
  constructor
  · exact (dissipation_gate_spec 4 1 [] []).1 (by norm_num)
  · exact (dissipation_gate_spec (4 : ℝ) (1 : ℝ) [] [((-1 : ℝ), (1 : ℝ))]).2.2.2
      ⟨((-1 : ℝ), (1 : ℝ)), by simp, by norm_num⟩

/-- C2: for a thermally coupled mode the assembler derives the occupation
number by the Bose formula `1/(exp(w/w_th) - 1)` and emits exactly the two
rate-gated candidates — de-excitation at `kappa*(1+n_th)` on the mode
operator and excitation at `kappa*n_th` on its adjoint — so the block
contributes at most two collapse operators; the `compute` collapse list is
precisely the two mode blocks in sequence. -/
theorem thermal_mode_assembly {ι : Type} (N_r N_m : ℕ)
    (kappa w w_th w_r w_m kappa_r kappa_m : ℝ) (op : Matrix ι ι ℂ) :
    bose w w_th = 1 / (Real.exp (w / w_th) - 1) ∧
    mode_c_ops kappa w w_th op =
      (if 0 < kappa * (1 + bose w w_th) then
        [Real.sqrt (kappa * (1 + bose w w_th)) • op] else []) ++
      (if 0 < kappa * bose w w_th then
        [Real.sqrt (kappa * bose w w_th) • opᴴ] else []) ∧
    (mode_c_ops kappa w w_th op).length ≤ 2 ∧
    ex25_c_ops N_r N_m w_r w_m kappa_r kappa_m w_th =
      mode_c_ops kappa_r w_r w_th (ex25_a N_r N_m) ++
        mode_c_ops kappa_m w_m w_th (ex25_b N_r N_m) := by
  have hsplit : mode_c_ops kappa w w_th op =
      (if 0 < kappa * (1 + bose w w_th) then
        [Real.sqrt (kappa * (1 + bose w w_th)) • op] else []) ++
      (if 0 < kappa * bose w w_th then
        [Real.sqrt (kappa * bose w w_th) • opᴴ] else []) := by
    by_cases h1 : 0 < kappa * (1 + bose w w_th) <;>
      by_cases h2 : 0 < kappa * bose w w_th <;>
        simp [mode_c_ops, gatedAppend, h1, h2]
  refine ⟨rfl, hsplit, ?_, ?_⟩
  · rw [hsplit]
    split_ifs <;> simp
  · by_cases h1 : 0 < kappa_r * (1 + bose w_r w_th) <;>
      by_cases h2 : 0 < kappa_r * bose w_r w_th <;>
        by_cases h3 : 0 < kappa_m * (1 + bose w_m w_th) <;>
          by_cases h4 : 0 < kappa_m * bose w_m w_th <;>
            simp [ex25_c_ops, mode_c_ops, gatedAppend, h1, h2, h3, h4]

/-- C9: `jc_integrate` fixes the thermal occupation at `n_th_a = 0.0`, so
its collapse list never contains the thermal-excitation term on `a.dag()`
and holds at most two operators: cavity relaxation `sqrt(kappa) • a` when
`kappa > 0` and atomic relaxation `sqrt(gamma) • sm` when `gamma > 0`. -/
theorem jc_collapse_list_zero_temperature (N : ℕ) (kappa gamma : ℝ) :
    jc_c_op_list N kappa gamma =
      (if 0 < kappa then [Real.sqrt kappa • jc_a N] else []) ++
      (if 0 < gamma then [Real.sqrt gamma • jc_sm N] else []) ∧
    (jc_c_op_list N kappa gamma).length ≤ 2 := by
  have hsplit : jc_c_op_list N kappa gamma =
      (if 0 < kappa then [Real.sqrt kappa • jc_a N] else []) ++
      (if 0 < gamma then [Real.sqrt gamma • jc_sm N] else []) := by
    by_cases hk : 0 < kappa <;>
      by_cases hg : 0 < gamma <;>
        simp [jc_c_op_list, gatedAppend, hk, hg]
  refine ⟨hsplit, ?_⟩
  rw [hsplit]
  split_ifs <;> simp

/-- C6: the spin-chain Hamiltonian built by `integrate`'s loops equals the
sum of on-site energy terms `-0.5 * h[n] * σz(n)` over `n = 0..N-1` plus
the nearest-neighbour coupling terms
`-0.5 * (Jx[n] σx(n)σx(n+1) + Jy[n] σy(n)σy(n+1) + Jz[n] σz(n)σz(n+1))`
over `n = 0..N-2`, all lifted into the same `2^N`-dimensional composite
space in the same site order. -/
theorem spinchain_H_eq_sum (N : ℕ) (h Jx Jy Jz : ℕ → ℝ) :
    spinchain_H N h Jx Jy Jz =
      (∑ n : Fin N, (-(0.5 : ℝ) * h n.val) • spinAt N n sigmaz) +
      (∑ n : Fin (N - 1),
        ((-(0.5 : ℝ) * Jx n.val) • (spinAt N (nbrL n) sigmax * spinAt N (nbrR n) sigmax) +
         (-(0.5 : ℝ) * Jy n.val) • (spinAt N (nbrL n) sigmay * spinAt N (nbrR n) sigmay) +
         (-(0.5 : ℝ) * Jz n.val) • (spinAt N (nbrL n) sigmaz * spinAt N (nbrR n) sigmaz))) ∧
    Fintype.card (Fin N → Fin 2) = 2 ^ N := by
  constructor
  · simp only [spinchain_H]
    rw [foldl_add3_eq
        (fun n : Fin (N - 1) =>
          (-(0.5 : ℝ) * Jx n.val) • (spinAt N (nbrL n) sigmax * spinAt N (nbrR n) sigmax))
        (fun n : Fin (N - 1) =>
          (-(0.5 : ℝ) * Jy n.val) • (spinAt N (nbrL n) sigmay * spinAt N (nbrR n) sigmay))
        (fun n : Fin (N - 1) =>
          (-(0.5 : ℝ) * Jz n.val) • (spinAt N (nbrL n) sigmaz * spinAt N (nbrR n) sigmaz)),
      foldl_add_eq (fun n : Fin N => (-(0.5 : ℝ) * h n.val) • spinAt N n sigmaz),
      zero_add, ← Fin.sum_univ_def, ← Fin.sum_univ_def]
  · simp [Fintype.card_fun]

/-- C3: for a sweep over `K` temperatures the result table of `compute` has
exactly `K` rows of the fixed four-column layout, and at every sweep point
the two occupation-number columns of its row equal a direct recomputation
of the Bose-occupation formula `1/(exp(w/w_th) - 1)` at that temperature. -/
theorem ex25_sweep_table {St : Type} (N_r N_m : ℕ)
    (steadystate : Matrix (Fin N_r × Fin N_m) (Fin N_r × Fin N_m) ℂ →
      List (Matrix (Fin N_r × Fin N_m) (Fin N_r × Fin N_m) ℂ) → St)
    (expect : St → Matrix (Fin N_r × Fin N_m) (Fin N_r × Fin N_m) ℂ → ℝ)
    (T_vec : List ℝ) (w_r w_m g w_d A kappa_r kappa_m : ℝ)
    (i : ℕ) (hi : i < T_vec.length) :
    (ex25_compute N_r N_m steadystate expect T_vec w_r w_m g w_d A kappa_r
      kappa_m).length = T_vec.length ∧
    ((ex25_compute N_r N_m steadystate expect T_vec w_r w_m g w_d A kappa_r
        kappa_m).getD i (fun _ => 0)) 1 =
      1 / (Real.exp (w_r / ex25_w_th (T_vec.getD i 0)) - 1) ∧
    ((ex25_compute N_r N_m steadystate expect T_vec w_r w_m g w_d A kappa_r
        kappa_m).getD i (fun _ => 0)) 3 =
      1 / (Real.exp (w_m / ex25_w_th (T_vec.getD i 0)) - 1) := by
  rw [ex25_compute_eq_map]
  have hrow : (T_vec.map (ex25_row N_r N_m steadystate expect w_r w_m kappa_r
        kappa_m (ex25_H N_r N_m w_r w_m g w_d A))).getD i (fun _ => 0) =
      ex25_row N_r N_m steadystate expect w_r w_m kappa_r kappa_m
        (ex25_H N_r N_m w_r w_m g w_d A) (T_vec.getD i 0) := by
    rw [List.getD_eq_getElem?_getD, List.getElem?_map,
      List.getElem?_eq_getElem hi, List.getD_eq_getElem?_getD,
      List.getElem?_eq_getElem hi]
    rfl
  refine ⟨by simp, ?_, ?_⟩ <;> rw [hrow] <;> simp [ex25_row, bose]

/-- Witness for C3: a one-point sweep with trivial external solvers has one
row whose occupation columns recompute the Bose formula. -/
theorem ex25_sweep_table_witness :
    (ex25_compute 1 1 (fun _ _ => ()) (fun _ _ => (0 : ℝ)) [1] 1 1 1 1 1 1
      1).length = ([(1 : ℝ)]).length ∧
    ((ex25_compute 1 1 (fun _ _ => ()) (fun _ _ => (0 : ℝ)) [1] 1 1 1 1 1 1
        1).getD 0 (fun _ => 0)) 1 =
      1 / (Real.exp (1 / ex25_w_th (([(1 : ℝ)]).getD 0 0)) - 1) ∧
    ((ex25_compute 1 1 (fun _ _ => ()) (fun _ _ => (0 : ℝ)) [1] 1 1 1 1 1 1
        1).getD 0 (fun _ => 0)) 3 =
      1 / (Real.exp (1 / ex25_w_th (([(1 : ℝ)]).getD 0 0)) - 1) :=
  ex25_sweep_table 1 1 (fun _ _ => ()) (fun _ _ => (0 : ℝ)) [1] 1 1 1 1 1 1 1
    0 (by norm_num)

/-- C4: during a sweep the Hamiltonian is one fixed object: every row is the
pure sweep-point body applied to that fixed Hamiltonian and its own
temperature (only the collapse list is recomputed per point), each sweep
point writes exactly one row, and changing the temperature of sweep point
`i` leaves every other row unchanged. -/
theorem ex25_sweep_independent {St : Type} (N_r N_m : ℕ)
    (steadystate : Matrix (Fin N_r × Fin N_m) (Fin N_r × Fin N_m) ℂ →
      List (Matrix (Fin N_r × Fin N_m) (Fin N_r × Fin N_m) ℂ) → St)
    (expect : St → Matrix (Fin N_r × Fin N_m) (Fin N_r × Fin N_m) ℂ → ℝ)
    (T_vec : List ℝ) (w_r w_m g w_d A kappa_r kappa_m T' : ℝ)
    (i j : ℕ) (hij : j ≠ i) :
    (ex25_compute N_r N_m steadystate expect T_vec w_r w_m g w_d A kappa_r
      kappa_m).length = T_vec.length ∧
    ex25_compute N_r N_m steadystate expect T_vec w_r w_m g w_d A kappa_r
        kappa_m =
      T_vec.map (ex25_row N_r N_m steadystate expect w_r w_m kappa_r kappa_m
        (ex25_H N_r N_m w_r w_m g w_d A)) ∧
    (ex25_compute N_r N_m steadystate expect (T_vec.set i T') w_r w_m g w_d A
        kappa_r kappa_m).getD j (fun _ => 0) =
      (ex25_compute N_r N_m steadystate expect T_vec w_r w_m g w_d A kappa_r
        kappa_m).getD j (fun _ => 0) := by
  refine ⟨by rw [ex25_compute_eq_map]; simp, ex25_compute_eq_map _ _ _ _ _ _ _ _ _ _ _ _, ?_⟩
  rw [ex25_compute_eq_map, ex25_compute_eq_map, List.map_set,
    List.getD_eq_getElem?_getD, List.getD_eq_getElem?_getD,
    List.getElem?_set_ne (Ne.symm hij)]

/-- Witness for C4: in a two-point sweep with trivial external solvers,
changing sweep point 0 leaves row 1 unchanged. -/
theorem ex25_sweep_independent_witness :
    (ex25_compute 1 1 (fun _ _ => ()) (fun _ _ => (0 : ℝ)) [1, 2] 1 1 1 1 1 1
      1).length = ([(1 : ℝ), 2]).length ∧
    ex25_compute 1 1 (fun _ _ => ()) (fun _ _ => (0 : ℝ)) [1, 2] 1 1 1 1 1 1
        1 =
      ([(1 : ℝ), 2]).map (ex25_row 1 1 (fun _ _ => ()) (fun _ _ => (0 : ℝ))
        1 1 1 1 (ex25_H 1 1 1 1 1 1 1)) ∧
    (ex25_compute 1 1 (fun _ _ => ()) (fun _ _ => (0 : ℝ))
        (([(1 : ℝ), 2]).set 0 5) 1 1 1 1 1 1 1).getD 1 (fun _ => 0) =
      (ex25_compute 1 1 (fun _ _ => ()) (fun _ _ => (0 : ℝ)) [1, 2] 1 1 1 1 1
        1 1).getD 1 (fun _ => 0) :=
  ex25_sweep_independent 1 1 (fun _ _ => ()) (fun _ _ => (0 : ℝ)) [1, 2]
    1 1 1 1 1 1 1 5 0 1 (by norm_num)

/-- C8: the checked `lift` of the Operator Builder has a single error
condition: an in-range subsystem index always yields the lifted operator,
an out-of-range index always fails with `ConfigurationError`, and in the
failing case composing with any solver still surfaces that error without
the solver contributing anything (the failure precedes every solver call). -/
theorem lift_checked_spec {N : ℕ} (dims : Fin N → ℕ) (i : ℕ)
    (A : ∀ h : i < N, Matrix (Fin (dims ⟨i, h⟩)) (Fin (dims ⟨i, h⟩)) ℂ) :
    (∀ h : i < N, lift_checked dims i A = Except.ok (lift dims ⟨i, h⟩ (A h))) ∧
    (N ≤ i → lift_checked dims i A = Except.error SimError.configurationError) ∧
    (N ≤ i → ∀ (St : Type)
      (solve1 solve2 : Matrix (∀ j, Fin (dims j)) (∀ j, Fin (dims j)) ℂ → St),
      Except.map solve1 (lift_checked dims i A) =
        Except.error SimError.configurationError ∧
      Except.map solve1 (lift_checked dims i A) =
        Except.map solve2 (lift_checked dims i A)) := by
  refine ⟨fun h => ?_, fun h => ?_, fun h St s1 s2 => ?_⟩
  · unfold lift_checked
    rw [dif_pos h]
  · unfold lift_checked
    rw [dif_neg (by omega)]
  · have he : lift_checked dims i A = Except.error SimError.configurationError := by
      unfold lift_checked
      rw [dif_neg (by omega)]
    rw [he]
    exact ⟨rfl, rfl⟩

/-- Witness for C8: on a one-subsystem space, index 5 is rejected with
`ConfigurationError` and index 0 lifts `σx`. -/
theorem lift_checked_spec_witness :
    lift_checked (fun _ : Fin 1 => 2) 5 (fun h => absurd h (by omega)) =
      Except.error SimError.configurationError ∧
    lift_checked (fun _ : Fin 1 => 2) 0 (fun _ => sigmax) =
      Except.ok (lift (fun _ : Fin 1 => 2) ⟨0, by omega⟩ sigmax) := by
  constructor
  · exact (lift_checked_spec (fun _ : Fin 1 => 2) 5
      (fun h => absurd h (by omega))).2.1 (by omega)
  · exact (lift_checked_spec (fun _ : Fin 1 => 2) 0 (fun _ => sigmax)).1
      (by omega)

end QuSim
